import Mathlib

/-!
Shallow embedding of the CI-automation decision engine of
`gravitational/gh-actions-poc` (tool/ci): review aggregation, approval
evaluation, commit verification, approval invalidation, stale-run pruning
and the comment override gate.

Host interactions (GitHub API calls) are modelled as data passed in:
fetched lists (reviews, comments, workflow runs, workflows) are function
arguments, and mutating calls (delete run, dismiss review, rerun) are
modelled by returning the sequence of performed operations together with
oracles (`Int → Bool`) that say whether each host call succeeds.
Errors are modelled as `Option String` (`none` = Go `nil`) or
`Except String`.
-/

namespace GhActions

/-- `environment.Metadata` — the current pull request metadata
(environment/environment.go). -/
structure Metadata where
  author : String
  repoName : String
  repoOwner : String
  number : Int
  headSHA : String
  baseSHA : String
  branchName : String
deriving DecidableEq, Repr

/-- `environment.PullRequestEnvironment` (environment/environment.go):
the reviewer-policy map (author login → required reviewers, Go
`map[string][]string` modelled as an association list) plus the
`defaultReviewers` field (set to `Reviewers[""]` by `New`). -/
structure PullRequestEnvironment where
  metadata : Metadata
  reviewers : List (String × List String)
  defaultReviewers : List String
deriving DecidableEq, Repr

/-- `github.PullRequestComment` — the fields read by the bot. -/
structure PullRequestComment where
  authorAssociation : String
  userLogin : String
  commitID : String
  body : String
deriving DecidableEq, Repr

/-- The `review` struct of check.go: reviewer login, review state, the
commit the review was made against, the review id and the submission
time (Go `*time.Time`, modelled as a natural-number timestamp). -/
structure Review where
  name : String
  status : String
  commitID : String
  id : Int
  submittedAt : Nat
deriving DecidableEq, Repr

/-- `github.Workflow` — the fields read by the bot. -/
structure Workflow where
  id : Int
  name : String
deriving DecidableEq, Repr

/-- `github.WorkflowRun` — the fields read by the bot. -/
structure WorkflowRun where
  id : Int
  workflowID : Int
  branch : String
  createdAt : Nat
deriving DecidableEq, Repr, Inhabited

/-- Modelled from the spec: the `ci` package constant `RUNCI` (the exact
trigger phrase of the comment override gate); the constants file of the
`ci` package is not part of the sources, the spec fixes the phrase as
"run ci". -/
def RUNCI : String := "run ci"

/-- Modelled from the spec: the `ci` package constant `Approved`, the
review state meaning an approving review (the GitHub review-state
value). -/
def Approved : String := "APPROVED"

/-- Modelled from the spec: the `ci` package constant `GithubCommit`,
the known verification-payload marker of the trusted host identity. -/
def GithubCommit : String := "GitHub <noreply@github.com>"

/-- Modelled from the spec: the `ci` package constant `Owner`, the
author-association value of a repository owner. -/
def Owner : String := "OWNER"

/-- Go `strings.Contains s sub`: `sub` occurs as a contiguous substring
of `s`. -/
def strContains (s sub : String) : Bool :=
  decide (sub.data <:+: s.data)

/-- `GetReviewersForAuthor` (environment/environment.go): the explicit entry of the author of the reviewer map when present, else the
`defaultReviewers` field. -/
def GetReviewersForAuthor (e : PullRequestEnvironment) (user : String) : List String :=
  match e.reviewers.lookup user with
  | some value => value
  | none => e.defaultReviewers

/-- `IsInternal` (environment/environment.go): an author is internal iff
it has an explicit entry in the reviewer map. -/
def IsInternal (e : PullRequestEnvironment) (author : String) : Bool :=
  (e.reviewers.lookup author).isSome

/-- `commentPermitsRun` (pkg/bot/bot.go, lines 108–127), embedded as
written: the commit id must equal the head SHA, the body must contain
`RUNCI`, and the commenter login must appear in
`GetReviewersForAuthor ""`.  NOTE: the author-association comparison
against `ci.Owner` is commented out in the source
(`if /* *comment.AuthorAssociation == ci.Owner && */ ...`), so the
embedding does not read `authorAssociation`. -/
def commentPermitsRun (e : PullRequestEnvironment) (comment : PullRequestComment) : Bool :=
  if comment.commitID ≠ e.metadata.headSHA then
    false
  else if ¬ strContains comment.body RUNCI then
    false
  else
    (GetReviewersForAuthor e "").any (fun admin => comment.userLogin == admin)

/-- `github.SignatureVerification` — the fields read by `verifyCommit`
(pointer fields kept as `Option`, matching the nil checks of the
source). -/
structure SignatureVerification where
  payload : Option String
  verified : Option Bool
deriving DecidableEq, Repr

/-- `verifyCommit` (.history/pkg/bot/check_20210927095724.go, lines
202–233), with the two host responses passed as data: `files` is
`comparison.Files` of `CompareCommits` (only its length is read) and
`verification` is `commit.Commit.Verification` of `GetCommit`.  Returns
`none` for Go `nil` and `some msg` for the policy-violation error. -/
def verifyCommit (files : List String) (verification : Option SignatureVerification) :
    Option String :=
  if files.length ≠ 0 then
    some "detected file change"
  else
    match verification with
    | some v =>
      match v.payload, v.verified with
      | some payload, some verified =>
        if strContains payload GithubCommit && verified then
          none
        else
          some "commit is not verified and/or is not signed by GitHub"
      | some _, none => some "commit is not verified and/or is not signed by GitHub"
      | none, _ => some "commit is not verified and/or is not signed by GitHub"
    | none => some "commit is not verified and/or is not signed by GitHub"

/-- `hasApproved` (check.go, lines 171–178): the loop with early return
is a linear scan, so it is `List.any` of the loop condition; on success
Go returns `("", true)`, on failure `(reviewer, false)`. -/
def hasApproved (reviewer : String) (reviews : List Review) : String × Bool :=
  if reviews.any (fun rev => rev.name == reviewer && rev.status == Approved) then
    ("", true)
  else
    (reviewer, false)

/-- The `waitingOnApprovalsFrom` accumulation loop of `approved`
(check.go, lines 73–79): for each required reviewer, append the first
component of `hasApproved` when its second component is false. -/
def waitingList (mostRecentReviews : List Review) (required : List String) : List String :=
  required.foldl
    (fun acc requiredReviewer =>
      let p := hasApproved requiredReviewer mostRecentReviews
      if ¬ p.2 then acc ++ [p.1] else acc)
    []

/-- `approved` (check.go, lines 72–94): build the waiting list, then the
3-way switch on its length composing the human-readable message
(`strings.Join` is `String.intercalate`); `none` is the Go `nil`
return. -/
def approved (mostRecentReviews : List Review) (required : List String) : Option String :=
  let waitingOnApprovalsFrom := waitingList mostRecentReviews required
  if waitingOnApprovalsFrom.length = 1 then
    some ("required reviewers have not yet approved, waiting on an approval from " ++
      String.intercalate "" waitingOnApprovalsFrom)
  else if waitingOnApprovalsFrom.length = 2 then
    some ("required reviewers have not yet approved, waiting for approvals from " ++
      String.intercalate " and " waitingOnApprovalsFrom)
  else if waitingOnApprovalsFrom.length > 2 then
    some ("required reviewers have not yet approved, waiting for approvals from " ++
      String.intercalate ", " waitingOnApprovalsFrom.dropLast ++ ", and " ++
      waitingOnApprovalsFrom.getLastD "")
  else
    none

/-- One step of the `mostRecent` loop (check.go, lines 152–163): the Go
map `mostRecentReviews` is an association list with unique keys; a
missing key is appended, a present key is overwritten in place when the
`submittedAt` of the new review is strictly later (`time.After`). -/
def updateMostRecent (m : List (String × Review)) (rev : Review) : List (String × Review) :=
  match m.lookup rev.name with
  | none => m ++ [(rev.name, rev)]
  | some val =>
    if rev.submittedAt > val.submittedAt then
      m.map (fun p => if p.1 == rev.name then (rev.name, rev) else p)
    else
      m

/-- `mostRecent` (check.go, lines 150–169): fold the update over the
fetched reviews, then collect the values of the map.  (Go ranges over the map
in unspecified order; the embedding uses the association-list order,
a deterministic refinement — no claim depends on the output order.) -/
def mostRecent (currentReviews : List Review) : List Review :=
  (currentReviews.foldl updateMostRecent []).map Prod.snd

/-- `dismissMessage` (check.go, lines 181–188): the fixed prefix
followed by an `@`-mention of each required reviewer (`Fprintf "@%v"`,
no separator).  The `pr` parameter of the source is never read by the
body and is omitted. -/
def dismissMessage (required : List String) : String :=
  "new commit pushed, please re-review " ++
    String.join (required.map (fun reviewer => "@" ++ reviewer))

/-- `hasNewCommit` (check.go, lines 192–199): the commit id of some review
differs from the head SHA. -/
def hasNewCommit (headSHA : String) (revs : List Review) : Bool :=
  revs.any (fun v => v.commitID ≠ headSHA)

/-- `invalidateApprovals` (check.go, lines 236–253), with the `DismissReview` host call modelled by the oracle `dismissOk` on the review
id.  Returns the dismissal calls issued (review id with the message
sent, the failing call included) and the error outcome: an approved
review whose dismissal fails stops the loop and surfaces the error. -/
def invalidateApprovals (dismissOk : Int → Bool) (msg : String) :
    List Review → List (Int × String) × Option String
  | [] => ([], none)
  | v :: rest =>
    if v.status == Approved then
      if dismissOk v.id then
        let r := invalidateApprovals dismissOk msg rest
        ((v.id, msg) :: r.1, r.2)
      else
        ([(v.id, msg)], some "failed to dismiss review")
    else
      invalidateApprovals dismissOk msg rest

/-- `getWorkflow` (pkg/bot/bot.go, lines 241–253): the first workflow of
the fetched list whose name matches, else a not-found error. -/
def getWorkflow (workflows : List Workflow) (workflowName : String) : Except String Workflow :=
  match workflows.find? (fun w => w.name == workflowName) with
  | some w => Except.ok w
  | none => Except.error ("workflow " ++ workflowName ++ " not found")

/-- The `ListWorkflowRunsByID` host call with a branch filter: the fetched
runs of the workflow restricted to the branch. -/
def listWorkflowRunsByID (hostRuns : List WorkflowRun) (workflowID : Int) (branch : String) :
    List WorkflowRun :=
  hostRuns.filter (fun r => r.workflowID == workflowID && r.branch == branch)

/-- The comparison of `getSortedWorkflowRuns`: ascending creation time.
`sort.Slice` with the strict `CreatedAt.Before` produces some
permutation sorted by the reflexive closure `≤`; the embedding realizes
it with insertion sort, a deterministic refinement. -/
def runLE (a b : WorkflowRun) : Prop :=
  a.createdAt ≤ b.createdAt

instance : DecidableRel runLE := fun a b => Nat.decLe a.createdAt b.createdAt

instance : IsTotal WorkflowRun runLE :=
  ⟨fun a b => Nat.le_total a.createdAt b.createdAt⟩

instance : IsTrans WorkflowRun runLE :=
  ⟨fun _ _ _ h1 h2 => Nat.le_trans h1 h2⟩

/-- `getSortedWorkflowRuns` (pkg/bot/bot.go, lines 225–238): fetch the
runs of the workflow on the branch and sort ascending by creation time. -/
def getSortedWorkflowRuns (hostRuns : List WorkflowRun) (workflowID : Int)
    (branchName : String) : List WorkflowRun :=
  List.insertionSort runLE (listWorkflowRunsByID hostRuns workflowID branchName)

/-- The deletion loop of `deleteRuns` over a run list, with the `DeleteWorkflowRun` host call modelled by the oracle `deleteOk` on the run
id: delete in order, stopping at the first failure and surfacing it.
The returned list records the run ids passed to the delete call (the
failing call included). -/
def deleteSeq (deleteOk : Int → Bool) : List WorkflowRun → List Int × Option String
  | [] => ([], none)
  | run :: rest =>
    if deleteOk run.id then
      let r := deleteSeq deleteOk rest
      (run.id :: r.1, r.2)
    else
      ([run.id], some "failed to delete workflow run")

/-- `deleteRuns` (pkg/bot/bot.go, lines 213–223): the loop
`for i := 0; i < len(runs)-1` visits exactly `runs.dropLast` — every run
except the most recent one. -/
def deleteRuns (deleteOk : Int → Bool) (runs : List WorkflowRun) : List Int × Option String :=
  deleteSeq deleteOk runs.dropLast

/-- `DismissStaleWorkflowRuns` (pkg/bot/bot.go, lines 151–169) after the
workflow has been resolved: sort the runs of the workflow on the branch
and delete all but the most recent. -/
def dismissStaleWorkflowRuns (deleteOk : Int → Bool) (hostRuns : List WorkflowRun)
    (workflowID : Int) (branch : String) : List Int × Option String :=
  deleteRuns deleteOk (getSortedWorkflowRuns hostRuns workflowID branch)

/-- `redoMostRecentRun` (pkg/bot/bot.go, lines 193–209): fetch the
runs of the workflow, sorted — note the source passes `pr.BranchName` as the
branch filter — fail not-found when no run exists, else rerun
`runs[len(runs)-1]`, the most recent run.  Returns the id of the run
passed to `RerunWorkflowByID`. -/
def redoMostRecentRun (hostRuns : List WorkflowRun) (branchName : String)
    (workflowID : Int) : Except String Int :=
  let runs := getSortedWorkflowRuns hostRuns workflowID branchName
  if runs.length < 1 then
    Except.error "workflow run not found"
  else
    Except.ok ((runs.getLastD default).id)

/-- Modelled from the spec: the reading of `Rerun` in the claim — "fetch and
sort its runs (no branch filter in this mode)" — i.e.
`redoMostRecentRun` with the branch filter absent.  Kept separate from
the source-faithful `redoMostRecentRun` to compare the two. -/
def redoMostRecentRunSpec (hostRuns : List WorkflowRun) (workflowID : Int) :
    Except String Int :=
  let runs := List.insertionSort runLE (hostRuns.filter (fun r => r.workflowID == workflowID))
  if runs.length < 1 then
    Except.error "workflow run not found"
  else
    Except.ok ((runs.getLastD default).id)

/-! Proof-support definitions. -/

/-- The effect of one `mostRecent` loop step on the entry of a single
key `k`: keep the later-submitted review, the earlier-seen one on a
tie (`time.After` is strict). -/
def pickReview (k : String) (acc : Option Review) (rev : Review) : Option Review :=
  if rev.name == k then
    match acc with
    | none => some rev
    | some val => if rev.submittedAt > val.submittedAt then some rev else some val
  else acc

/-- Left-biased maximum by submission time: the newcomer wins only when
strictly later. -/
def better (a b : Review) : Review :=
  if b.submittedAt > a.submittedAt then b else a

/-- Well-formedness of the `mostRecent` association list: keys are
unique and the reviewer login of each value is its key. -/
def goodMap (m : List (String × Review)) : Prop :=
  (m.map Prod.fst).Nodup ∧ ∀ p ∈ m, p.2.name = p.1

/-! Concrete fixtures, taken from the test data of the repository itself
(`TestCommentPermitsRun`). -/

/-- The pull request of `TestCommentPermitsRun`. -/
def prGate : Metadata :=
  ⟨"Codertocat", "Hello-World", "Codertocat", 2,
   "ec26c3e57ca3a959ca5aad62de7213c562f8c821",
   "f95f852bd8fca8fcc58a9a2d6c842781e32a215e", "changes"⟩

/-- The environment of `TestCommentPermitsRun`: reviewer map with
default entry `["test-user"]`, the unexported `defaultReviewers` field
left at its zero value. -/
def envGate : PullRequestEnvironment :=
  ⟨prGate, [("foo", ["bar", "baz"]), ("", ["test-user"])], []⟩

/-- The third test case of `TestCommentPermitsRun`: commit id equals the
head SHA, the body contains "run ci", the commenter is in the default
reviewer set, but the author association is COLLABORATOR, not OWNER;
the test expects `false`. -/
def commentCollaborator : PullRequestComment :=
  ⟨"COLLABORATOR", "test-user", "ec26c3e57ca3a959ca5aad62de7213c562f8c821",
   "run ci &&&&&&&& "⟩

/-- Two reviews by the same reviewer with equal submission timestamps
and different review ids (a tie for `mostRecent`). -/
def tieFirst : Review :=
  ⟨"alice", "APPROVED", "sha1", 1, 10⟩

/-- The later-seen review of the tie. -/
def tieSecond : Review :=
  ⟨"alice", "CHANGES_REQUESTED", "sha2", 2, 10⟩

/-- A workflow run on a branch other than the one under test. -/
def runOtherBranch : WorkflowRun :=
  ⟨1, 7, "other", 5⟩

/-- An environment whose reviewer map has an explicit empty entry for
author `eve`, next to a non-empty default set. -/
def envEmptyEntry : PullRequestEnvironment :=
  ⟨prGate, [("eve", []), ("", ["d1", "d2"])], ["d1", "d2"]⟩

/-- Three workflow runs of workflow 7 on branch `main` with creation
times 1 < 2 < 3 (the ids equal the times). -/
def threeRuns : List WorkflowRun :=
  [⟨2, 7, "main", 2⟩, ⟨3, 7, "main", 3⟩, ⟨1, 7, "main", 1⟩]

/-- Aggregated reviews used as a concrete approval fixture: an approving
review by `a`, a non-approving one by `b` and an approving one by `c`. -/
def reviewsFixture : List Review :=
  [⟨"a", "APPROVED", "s", 1, 1⟩, ⟨"b", "CHANGES_REQUESTED", "s", 2, 1⟩,
   ⟨"c", "APPROVED", "s", 3, 1⟩]

/-! Theorems. -/

/-- `String.intercalate` on a one-element list. -/
theorem intercalate_one (s x : String) : String.intercalate s [x] = x := by
  simp [String.intercalate, String.intercalate.go]

/-- `String.intercalate` on a two-element list. -/
theorem intercalate_two (s x y : String) : String.intercalate s [x, y] = x ++ s ++ y := by
  simp [String.intercalate, String.intercalate.go]

/-- `String.intercalate` on a three-element list. -/
theorem intercalate_three (s x y z : String) :
    String.intercalate s [x, y, z] = x ++ s ++ y ++ s ++ z := by
  simp [String.intercalate, String.intercalate.go, String.append_assoc]

/-- C1: the Comment Override Gate accepts a comment whose author
association is COLLABORATOR when the other three conditions hold,
although the doc comment of `commentPermitsRun` and the test
`TestCommentPermitsRun` both require the association to be OWNER: the
owner comparison is commented out in the source.  The claimed
"authorizes only if the author association is OWNER" is therefore
violated by the code at this input. -/
theorem commentPermitsRun_ignores_owner_association :
    commentPermitsRun envGate commentCollaborator = true ∧
    commentCollaborator.authorAssociation ≠ Owner := by
  decide

/-- C2: `verifyCommit` succeeds (returns `nil`) exactly when the
comparison reports zero changed files and the verification metadata is
present with a payload containing the trusted-host marker and the
verified flag true; otherwise it returns the policy-violation error. -/
theorem verifyCommit_none_iff (files : List String)
    (verification : Option SignatureVerification) :
    verifyCommit files verification = none ↔
      files = [] ∧ ∃ v payload, verification = some v ∧ v.payload = some payload ∧
        v.verified = some true ∧ strContains payload GithubCommit = true := by
  unfold verifyCommit
  cases files with
  | cons f t => simp
  | nil =>
    cases verification with
    | none => simp
    | some v =>
      cases hp : v.payload with
      | none => simp [hp]
      | some payload =>
        cases hv : v.verified with
        | none => simp [hp, hv]
        | some b =>
          cases b with
          | false => simp [hp, hv]
          | true =>
            by_cases hm : strContains payload GithubCommit = true
            · simp [hp, hv, hm]
            · simp [hp, hv, hm]

/-- C4: the waiting-list message grammar — one missing reviewer gives
"waiting on an approval from X", two give
"waiting for approvals from X and Y", and three or more give
"waiting for approvals from X, Y, …, and Z" with all but the last
joined by ", " and the last joined with ", and ". -/
theorem approved_message_grammar (reviews : List Review) (required : List String) :
    (∀ x, waitingList reviews required = [x] →
      approved reviews required =
        some ("required reviewers have not yet approved, waiting on an approval from " ++ x)) ∧
    (∀ x y, waitingList reviews required = [x, y] →
      approved reviews required =
        some ("required reviewers have not yet approved, waiting for approvals from " ++
          (x ++ " and " ++ y))) ∧
    (∀ x y z, waitingList reviews required = [x, y, z] →
      approved reviews required =
        some ("required reviewers have not yet approved, waiting for approvals from " ++
          (x ++ ", " ++ y ++ ", and " ++ z))) ∧
    (∀ w, waitingList reviews required = w → 3 ≤ w.length →
      approved reviews required =
        some ("required reviewers have not yet approved, waiting for approvals from " ++
          (String.intercalate ", " w.dropLast ++ ", and " ++ w.getLastD ""))) := by
  refine ⟨fun x h => ?_, fun x y h => ?_, fun x y z h => ?_, fun w h hw => ?_⟩
  · unfold approved
    rw [h]
    simp [intercalate_one]
  · unfold approved
    rw [h]
    simp [intercalate_two, String.append_assoc]
  · unfold approved
    rw [h]
    simp [intercalate_two, String.append_assoc]
  · unfold approved
    rw [h]
    have h1 : ¬ w.length = 1 := by omega
    have h2 : ¬ w.length = 2 := by omega
    have h3 : w.length > 2 := by omega
    simp [h1, h2, h3, String.append_assoc]

/-- C4 witness: the grammar at one, two and three missing reviewers with
no reviews fetched. -/
theorem approved_message_grammar_witness :
    approved [] ["a"] =
      some "required reviewers have not yet approved, waiting on an approval from a" ∧
    approved [] ["a", "b"] =
      some "required reviewers have not yet approved, waiting for approvals from a and b" ∧
    approved [] ["a", "b", "c"] =
      some "required reviewers have not yet approved, waiting for approvals from a, b, and c" := by
  refine ⟨?_, ?_, ?_⟩
  · have := (approved_message_grammar [] ["a"]).1 "a" (by decide)
    simpa using this
  · have := (approved_message_grammar [] ["a", "b"]).2.1 "a" "b" (by decide)
    simpa using this
  · have := (approved_message_grammar [] ["a", "b", "c"]).2.2.1 "a" "b" "c" (by decide)
    simpa using this

/-- C10: an author with an explicit but empty required-reviewer entry is
internal, its lookup yields the empty list (not the default set), and
`approved` succeeds on the empty required list with an empty waiting
list, for any aggregated review set. -/
theorem approved_empty_entry (reviews : List Review) (e : PullRequestEnvironment)
    (author : String) (h : e.reviewers.lookup author = some []) :
    IsInternal e author = true ∧
    GetReviewersForAuthor e author = [] ∧
    waitingList reviews (GetReviewersForAuthor e author) = [] ∧
    approved reviews (GetReviewersForAuthor e author) = none := by
  have hg : GetReviewersForAuthor e author = [] := by
    unfold GetReviewersForAuthor
    rw [h]
  refine ⟨?_, hg, ?_, ?_⟩
  · unfold IsInternal
    rw [h]
    rfl
  · rw [hg]
    rfl
  · rw [hg]
    rfl

/-- C10 witness: the empty-entry author `eve` of `envEmptyEntry`. -/
theorem approved_empty_entry_witness :
    IsInternal envEmptyEntry "eve" = true ∧
    GetReviewersForAuthor envEmptyEntry "eve" = [] ∧
    waitingList reviewsFixture (GetReviewersForAuthor envEmptyEntry "eve") = [] ∧
    approved reviewsFixture (GetReviewersForAuthor envEmptyEntry "eve") = none :=
  approved_empty_entry reviewsFixture envEmptyEntry "eve" (by decide)

/-- C6 counterexample: on two same-reviewer reviews with equal
submission timestamps, `mostRecent` retains the first-seen entry, not
the last-seen one claimed. -/
theorem mostRecent_tie_keeps_first_seen :
    mostRecent [tieFirst, tieSecond] = [tieFirst] ∧
    tieFirst ≠ tieSecond ∧
    mostRecent [tieFirst, tieSecond] ≠ [tieSecond] := by
  decide

/-- C8 counterexample: `redoMostRecentRun` does apply the branch filter
(the PR branch) when fetching runs — on a host whose only run of the
workflow lies on another branch, the code fails not-found while the
no-branch-filter reading of the claim (`redoMostRecentRunSpec`) reruns
that run. -/
theorem redoMostRecentRun_filters_by_branch :
    redoMostRecentRun [runOtherBranch] "main" 7 = Except.error "workflow run not found" ∧
    redoMostRecentRunSpec [runOtherBranch] 7 = Except.ok 1 := by
  refine ⟨rfl, rfl⟩

/-- The waiting list is the sublist of `required` (in order) of logins
without an approving review in the aggregated set. -/
theorem waitingList_eq_filter (reviews : List Review) (required : List String) :
    waitingList reviews required =
      required.filter
        (fun login => ! reviews.any (fun rev => rev.name == login && rev.status == Approved)) := by
  have h : ∀ (l : List String) (acc : List String),
      l.foldl
        (fun acc requiredReviewer =>
          let p := hasApproved requiredReviewer reviews
          if ¬ p.2 then acc ++ [p.1] else acc)
        acc =
      acc ++ l.filter
        (fun login => ! reviews.any (fun rev => rev.name == login && rev.status == Approved)) := by
    intro l
    induction l with
    | nil => intro acc; simp
    | cons a t ih =>
      intro acc
      rw [List.foldl_cons]
      show List.foldl _
        (if ¬ (hasApproved a reviews).2 = true then acc ++ [(hasApproved a reviews).1] else acc)
        t = _
      rw [List.filter_cons]
      by_cases hc : reviews.any (fun rev => rev.name == a && rev.status == Approved)
      · have hHA : hasApproved a reviews = ("", true) := by simp [hasApproved, hc]
        rw [hHA, if_neg (by simp)]
        have hcf : (! reviews.any fun rev => rev.name == a && rev.status == Approved) = false := by
          simp [hc]
        rw [hcf, if_neg (by simp)]
        exact ih acc
      · have hHA : hasApproved a reviews = (a, false) := by simp [hasApproved, hc]
        rw [hHA, if_pos (by simp)]
        have hcf : (! reviews.any fun rev => rev.name == a && rev.status == Approved) = true := by
          simp [hc]
        rw [hcf, if_pos rfl]
        have h2 := ih (acc ++ [a])
        rw [List.append_assoc] at h2
        exact h2
  exact h required []

/-- `approved` returns `nil` exactly when the waiting list is empty. -/
theorem approved_none_iff_waiting_nil (reviews : List Review) (required : List String) :
    approved reviews required = none ↔ waitingList reviews required = [] := by
  unfold approved
  rcases h : waitingList reviews required with _ | ⟨a, _ | ⟨b, t⟩⟩
  · simp
  · simp
  · cases t with
    | nil => simp
    | cons c t2 => simp

/-- C3: `approved` succeeds iff every required login has an aggregated
approving review; the success outcome is invariant under permutations
of the required list; and the waiting list is the order-preserving
sublist of the required list of logins without an approving review. -/
theorem approved_spec (reviews : List Review) (required : List String) :
    ((approved reviews required = none) ↔
      ∀ login ∈ required, ∃ rev ∈ reviews, rev.name = login ∧ rev.status = Approved) ∧
    (∀ required2, required.Perm required2 →
      ((approved reviews required = none) ↔ (approved reviews required2 = none))) ∧
    (waitingList reviews required =
      required.filter
        (fun login => ! reviews.any (fun rev => rev.name == login && rev.status == Approved))) := by
  have hiff : ∀ req : List String, (approved reviews req = none) ↔
      ∀ login ∈ req, ∃ rev ∈ reviews, rev.name = login ∧ rev.status = Approved := by
    intro req
    rw [approved_none_iff_waiting_nil, waitingList_eq_filter, List.filter_eq_nil_iff]
    constructor
    · intro h login hm
      have := h login hm
      simpa using this
    · intro h login hm
      have := h login hm
      simpa using this
  refine ⟨hiff required, fun required2 hp => ?_, waitingList_eq_filter reviews required⟩
  rw [hiff required, hiff required2]
  constructor
  · intro h login hm
    exact h login (hp.mem_iff.mpr hm)
  · intro h login hm
    exact h login (hp.mem_iff.mp hm)

/-- C3 witness: the fixture reviews approve `["a", "c"]` in both orders,
and the waiting list for `["b", "a", "d"]` is `["b", "d"]` in required
order. -/
theorem approved_spec_witness :
    approved reviewsFixture ["a", "c"] = none ∧
    (List.Perm ["a", "c"] ["c", "a"]) ∧
    (approved reviewsFixture ["c", "a"] = none) ∧
    waitingList reviewsFixture ["b", "a", "d"] = ["b", "d"] := by
  refine ⟨?_, by decide, ?_, ?_⟩
  · exact (approved_spec reviewsFixture ["a", "c"]).1.mpr (by decide)
  · exact ((approved_spec reviewsFixture ["a", "c"]).2.1 ["c", "a"] (by decide)).mp
      ((approved_spec reviewsFixture ["a", "c"]).1.mpr (by decide))
  · rw [(approved_spec reviewsFixture ["b", "a", "d"]).2.2]
    decide

/-- `List.lookup` on a cons cell, with a propositional key test. -/
theorem lookup_cons_eq (k1 : String) (v1 : Review) (t : List (String × Review)) (k : String) :
    List.lookup k ((k1, v1) :: t) = if k = k1 then some v1 else List.lookup k t := by
  rw [List.lookup_cons]
  by_cases hk : k = k1
  · subst hk
    simp
  · have hb : (k == k1) = false := by simp [hk]
    rw [hb, if_neg hk]

/-- Looking a key up after replacing the entries of key `name` in
place: the entry of `name` becomes `rev` when present, others are
untouched. -/
theorem lookup_replaceKey (m : List (String × Review)) (name k : String) (rev : Review) :
    (m.map (fun p => if p.1 == name then (name, rev) else p)).lookup k =
      if k = name then (m.lookup k).map (fun _ => rev) else m.lookup k := by
  induction m with
  | nil => by_cases hk : k = name <;> simp [hk]
  | cons p t ih =>
    obtain ⟨k1, v1⟩ := p
    simp only [List.map_cons]
    by_cases h1 : k1 = name
    · have hh : (if ((k1, v1).1 == name) = true then (name, rev) else (k1, v1)) =
          (name, rev) := by simp [h1]
      rw [hh]
      simp only [lookup_cons_eq]
      by_cases hk : k = name
      · rw [if_pos hk, if_pos hk, if_pos (hk.trans h1.symm)]
        rfl
      · have hk1 : ¬ k = k1 := fun hcon => hk (hcon.trans h1)
        rw [if_neg hk, if_neg hk, if_neg hk1, ih, if_neg hk]
    · have hh : (if ((k1, v1).1 == name) = true then (name, rev) else (k1, v1)) =
          (k1, v1) := by simp [h1]
      rw [hh]
      simp only [lookup_cons_eq]
      by_cases hk : k = k1
      · subst hk
        rw [if_pos rfl, if_neg h1, if_pos rfl]
      · rw [if_neg hk]
        by_cases hk2 : k = name
        · rw [if_pos hk2, if_neg hk, ih, if_pos hk2]
        · rw [if_neg hk2, if_neg hk, ih, if_neg hk2]

/-- One `mostRecent` step seen through `lookup`: the entry of any key
`k` evolves by `pickReview`. -/
theorem lookup_updateMostRecent (m : List (String × Review)) (rev : Review) (k : String) :
    (updateMostRecent m rev).lookup k = pickReview k (m.lookup k) rev := by
  cases h : m.lookup rev.name with
  | none =>
    have hred : updateMostRecent m rev = m ++ [(rev.name, rev)] := by
      unfold updateMostRecent
      rw [h]
    rw [hred, List.lookup_append]
    by_cases hk : k = rev.name
    · subst hk
      rw [h, lookup_cons_eq, if_pos rfl]
      simp [pickReview]
    · have hb : (rev.name == k) = false := by
        simp
        exact fun hh => hk hh.symm
      rw [lookup_cons_eq, if_neg hk]
      simp [pickReview, hb]
  | some val =>
    have hred : updateMostRecent m rev =
        (if rev.submittedAt > val.submittedAt
          then m.map (fun p => if p.1 == rev.name then (rev.name, rev) else p)
          else m) := by
      unfold updateMostRecent
      rw [h]
    rw [hred]
    by_cases ht : rev.submittedAt > val.submittedAt
    · rw [if_pos ht, lookup_replaceKey]
      by_cases hk : k = rev.name
      · subst hk
        rw [if_pos rfl, h]
        simp [pickReview, ht]
      · have hb : (rev.name == k) = false := by
          simp
          exact fun hh => hk hh.symm
        rw [if_neg hk]
        simp [pickReview, hb]
    · rw [if_neg ht]
      by_cases hk : k = rev.name
      · subst hk
        rw [h]
        simp [pickReview, ht]
      · have hb : (rev.name == k) = false := by
          simp
          exact fun hh => hk hh.symm
        simp [pickReview, hb]

/-- The `mostRecent` fold seen through `lookup`: the entry of key `k`
is the `pickReview` fold over the input reviews. -/
theorem lookup_foldl_updateMostRecent (revs : List Review) (m : List (String × Review))
    (k : String) :
    (revs.foldl updateMostRecent m).lookup k = revs.foldl (pickReview k) (m.lookup k) := by
  induction revs generalizing m with
  | nil => rfl
  | cons r t ih =>
    rw [List.foldl_cons, List.foldl_cons, ih (updateMostRecent m r), lookup_updateMostRecent]

/-- The `pickReview` fold from a present accumulator is the `better`
fold over the same-name reviews. -/
theorem foldl_pickReview_some (k : String) (revs : List Review) :
    ∀ a : Review, revs.foldl (pickReview k) (some a) =
      some ((revs.filter (fun r => r.name == k)).foldl better a) := by
  induction revs with
  | nil => intro a; rfl
  | cons r t ih =>
    intro a
    rw [List.foldl_cons, List.filter_cons]
    by_cases hr : (r.name == k) = true
    · rw [hr, if_pos rfl]
      have hp : pickReview k (some a) r = some (better a r) := by
        show (if (r.name == k) = true then
            if r.submittedAt > a.submittedAt then some r else some a
          else some a) = some (better a r)
        rw [hr, if_pos rfl]
        unfold better
        split <;> rfl
      rw [hp, List.foldl_cons]
      exact ih (better a r)
    · rw [if_neg (by simp [hr])]
      have hp : pickReview k (some a) r = some a := by simp [pickReview, hr]
      rw [hp]
      exact ih a

/-- The `pickReview` fold from an empty accumulator, when some
same-name review exists: the `better` fold started at the first one. -/
theorem foldl_pickReview_none (k : String) (revs : List Review) (h0 : Review)
    (t0 : List Review) (hf : revs.filter (fun r => r.name == k) = h0 :: t0) :
    revs.foldl (pickReview k) none = some (t0.foldl better h0) := by
  induction revs with
  | nil => simp at hf
  | cons r t ih =>
    rw [List.filter_cons] at hf
    by_cases hr : (r.name == k) = true
    · rw [if_pos hr] at hf
      injection hf with h1 h2
      subst h1
      rw [List.foldl_cons]
      have hp : pickReview k none r = some r := by simp [pickReview, hr]
      rw [hp, foldl_pickReview_some k t r, h2]
    · rw [if_neg hr] at hf
      rw [List.foldl_cons]
      have hp : pickReview k none r = none := by simp [pickReview, hr]
      rw [hp]
      exact ih hf

/-- The `pickReview` fold from an empty accumulator, when no same-name
review exists. -/
theorem foldl_pickReview_none_nil (k : String) (revs : List Review)
    (hf : revs.filter (fun r => r.name == k) = []) :
    revs.foldl (pickReview k) none = none := by
  induction revs with
  | nil => rfl
  | cons r t ih =>
    rw [List.filter_cons] at hf
    by_cases hr : (r.name == k) = true
    · rw [if_pos hr] at hf
      cases hf
    · rw [if_neg hr] at hf
      rw [List.foldl_cons]
      have hp : pickReview k none r = none := by simp [pickReview, hr]
      rw [hp]
      exact ih hf

/-- The `better` fold returns one of its inputs. -/
theorem foldl_better_mem (l : List Review) : ∀ a : Review, l.foldl better a ∈ a :: l := by
  induction l with
  | nil => intro a; simp
  | cons b t ih =>
    intro a
    rw [List.foldl_cons]
    rcases List.mem_cons.mp (ih (better a b)) with h | h
    · rw [h]
      unfold better
      by_cases hc : b.submittedAt > a.submittedAt
      · simp [hc]
      · simp [hc]
    · simp [h]

/-- The `better` fold dominates the accumulator and every element. -/
theorem foldl_better_le (l : List Review) :
    ∀ a : Review, a.submittedAt ≤ (l.foldl better a).submittedAt ∧
      ∀ x ∈ l, x.submittedAt ≤ (l.foldl better a).submittedAt := by
  induction l with
  | nil => intro a; exact ⟨Nat.le_refl _, by simp⟩
  | cons b t ih =>
    intro a
    rw [List.foldl_cons]
    obtain ⟨h1, h2⟩ := ih (better a b)
    have hab : a.submittedAt ≤ (better a b).submittedAt ∧
        b.submittedAt ≤ (better a b).submittedAt := by
      unfold better
      by_cases hc : b.submittedAt > a.submittedAt
      · rw [if_pos hc]
        omega
      · rw [if_neg hc]
        omega
    refine ⟨Nat.le_trans hab.1 h1, ?_⟩
    intro x hx
    rcases List.mem_cons.mp hx with rfl | h
    · exact Nat.le_trans hab.2 h1
    · exact h2 x h

/-- The `better` fold keeps the first strict-maximum element: either
the accumulator survives, or the result is an element strictly above
the accumulator, everything before it, and weakly above everything
after it. -/
theorem foldl_better_first (l : List Review) :
    ∀ a : Review, l.foldl better a = a ∨
      ∃ l1 q l2, l = l1 ++ q :: l2 ∧ l.foldl better a = q ∧
        a.submittedAt < q.submittedAt ∧
        (∀ x ∈ l1, x.submittedAt < q.submittedAt) ∧
        (∀ x ∈ l2, x.submittedAt ≤ q.submittedAt) := by
  induction l with
  | nil => intro a; exact Or.inl rfl
  | cons b t ih =>
    intro a
    rw [List.foldl_cons]
    by_cases hc : b.submittedAt > a.submittedAt
    · have hb : better a b = b := by simp [better, hc]
      rw [hb]
      rcases ih b with h | ⟨l1, q, l2, heq, hfold, hlt, hl1, hl2⟩
      · right
        refine ⟨[], b, t, by simp, h, hc, by simp, ?_⟩
        intro x hx
        have hle := (foldl_better_le t b).2 x hx
        rw [h] at hle
        exact hle
      · right
        refine ⟨b :: l1, q, l2, by rw [heq]; rfl, hfold, Nat.lt_trans hc hlt, ?_, hl2⟩
        intro x hx
        rcases List.mem_cons.mp hx with rfl | hx2
        · exact hlt
        · exact hl1 x hx2
    · have hb : better a b = a := by simp [better, hc]
      rw [hb]
      rcases ih a with h | ⟨l1, q, l2, heq, hfold, hlt, hl1, hl2⟩
      · exact Or.inl h
      · right
        refine ⟨b :: l1, q, l2, by rw [heq]; rfl, hfold, hlt, ?_, hl2⟩
        intro x hx
        rcases List.mem_cons.mp hx with rfl | hx2
        · exact Nat.lt_of_le_of_lt (Nat.le_of_not_lt hc) hlt
        · exact hl1 x hx2

/-- A key whose lookup is `none` is absent from the key list. -/
theorem not_mem_keys_of_lookup_none (m : List (String × Review)) (k : String)
    (h : m.lookup k = none) : k ∉ m.map Prod.fst := by
  induction m with
  | nil => simp
  | cons p t ih =>
    obtain ⟨k1, v1⟩ := p
    rw [List.lookup_cons] at h
    by_cases hk : k = k1
    · subst hk
      simp at h
    · have hb : (k == k1) = false := by simp [hk]
      rw [hb] at h
      simp only [List.map_cons, List.mem_cons]
      intro hmem
      rcases hmem with h1 | h1
      · exact hk h1
      · exact ih h h1

/-- `updateMostRecent` preserves well-formedness of the map. -/
theorem goodMap_update (m : List (String × Review)) (rev : Review) (h : goodMap m) :
    goodMap (updateMostRecent m rev) := by
  obtain ⟨hnd, hval⟩ := h
  cases hl : m.lookup rev.name with
  | none =>
    have hred : updateMostRecent m rev = m ++ [(rev.name, rev)] := by
      unfold updateMostRecent
      rw [hl]
    rw [hred]
    constructor
    · rw [List.map_append, List.nodup_append]
      refine ⟨hnd, by simp, ?_⟩
      intro a ha hb
      simp only [List.map_cons, List.map_nil, List.mem_singleton] at hb
      subst hb
      exact not_mem_keys_of_lookup_none m rev.name hl ha
    · intro p hp
      rcases List.mem_append.mp hp with h1 | h1
      · exact hval p h1
      · simp only [List.mem_singleton] at h1
        subst h1
        rfl
  | some val =>
    have hred : updateMostRecent m rev =
        (if rev.submittedAt > val.submittedAt
          then m.map (fun p => if p.1 == rev.name then (rev.name, rev) else p)
          else m) := by
      unfold updateMostRecent
      rw [hl]
    rw [hred]
    by_cases ht : rev.submittedAt > val.submittedAt
    · rw [if_pos ht]
      constructor
      · have hkeys : (m.map (fun p => if p.1 == rev.name then (rev.name, rev) else p)).map
            Prod.fst = m.map Prod.fst := by
          rw [List.map_map]
          apply List.map_congr_left
          intro p hp
          by_cases hpk : (p.1 == rev.name) = true
          · have hpe : p.1 = rev.name := by simpa using hpk
            simp [hpk, hpe]
          · have hne : ¬ p.1 = rev.name := by simpa using hpk
            simp [hpk, hne]
        rw [hkeys]
        exact hnd
      · intro p hp
        obtain ⟨p0, hp0, hpe⟩ := List.mem_map.mp hp
        by_cases hpk : (p0.1 == rev.name) = true
        · rw [if_pos hpk] at hpe
          subst hpe
          rfl
        · rw [if_neg hpk] at hpe
          subst hpe
          exact hval p0 hp0
    · rw [if_neg ht]
      exact ⟨hnd, hval⟩

/-- The empty map is well-formed. -/
theorem goodMap_nil : goodMap [] := ⟨List.nodup_nil, by simp⟩

/-- The `mostRecent` fold preserves well-formedness. -/
theorem goodMap_foldl (revs : List Review) :
    ∀ m, goodMap m → goodMap (revs.foldl updateMostRecent m) := by
  induction revs with
  | nil => intro m h; exact h
  | cons r t ih =>
    intro m h
    rw [List.foldl_cons]
    exact ih _ (goodMap_update m r h)

/-- In a map with unique keys, membership determines the lookup. -/
theorem lookup_eq_some_of_mem (m : List (String × Review)) (k : String) (v : Review)
    (hnd : (m.map Prod.fst).Nodup) (hm : (k, v) ∈ m) : m.lookup k = some v := by
  induction m with
  | nil => simp at hm
  | cons p t ih =>
    obtain ⟨k1, v1⟩ := p
    rw [List.map_cons] at hnd
    have hk1 : k1 ∉ t.map Prod.fst := (List.nodup_cons.mp hnd).1
    have hnd2 : (t.map Prod.fst).Nodup := (List.nodup_cons.mp hnd).2
    rcases List.mem_cons.mp hm with h | h
    · injection h with h1 h2
      subst h1
      subst h2
      rw [lookup_cons_eq, if_pos rfl]
    · by_cases hkk : k = k1
      · subst hkk
        have : k ∈ t.map Prod.fst := List.mem_map_of_mem Prod.fst h
        exact absurd this hk1
      · rw [lookup_cons_eq, if_neg hkk]
        exact ih hnd2 h

/-- A successful lookup exhibits a member of the map. -/
theorem mem_of_lookup_eq_some (m : List (String × Review)) (k : String) (v : Review)
    (h : m.lookup k = some v) : (k, v) ∈ m := by
  induction m with
  | nil => simp at h
  | cons p t ih =>
    obtain ⟨k1, v1⟩ := p
    rw [lookup_cons_eq] at h
    by_cases hkk : k = k1
    · subst hkk
      rw [if_pos rfl] at h
      injection h with h1
      subst h1
      exact List.mem_cons_self _ _
    · rw [if_neg hkk] at h
      exact List.mem_cons_of_mem _ (ih h)

/-- A well-formed map holds at most one review per reviewer login. -/
theorem countP_map_snd_le_one (name : String) :
    ∀ m : List (String × Review), goodMap m →
      (m.map Prod.snd).countP (fun r => r.name == name) ≤ 1 := by
  intro m
  induction m with
  | nil => intro hg; simp
  | cons p t ih =>
    intro hg
    obtain ⟨hnd, hval⟩ := hg
    rw [List.map_cons] at hnd ⊢
    have hgt : goodMap t :=
      ⟨List.Nodup.of_cons hnd, fun q hq => hval q (List.mem_cons_of_mem _ hq)⟩
    rw [List.countP_cons]
    by_cases hp : (p.2.name == name) = true
    · have hpn : p.1 = name := by
        have h1 := hval p (List.mem_cons_self _ _)
        have h2 : p.2.name = name := by simpa using hp
        rw [← h1, h2]
      have hzero : (t.map Prod.snd).countP (fun r => r.name == name) = 0 := by
        rw [List.countP_eq_zero]
        intro r hr
        obtain ⟨q, hq, hqe⟩ := List.mem_map.mp hr
        subst hqe
        have hqn := hval q (List.mem_cons_of_mem _ hq)
        intro hcon
        have : q.2.name = name := by simpa using hcon
        have hkey : q.1 = name := by rw [← hqn, this]
        have : name ∈ t.map Prod.fst := by
          rw [← hkey]
          exact List.mem_map_of_mem Prod.fst hq
        have hout : p.1 ∉ t.map Prod.fst := (List.nodup_cons.mp hnd).1
        rw [hpn] at hout
        exact hout this
      rw [hzero, hp]
      simp
    · rw [if_neg hp]
      have := ih hgt
      omega

/-- The relation of the C5 distinctness hypothesis is symmetric. -/
theorem distinctTimes_symmetric :
    Symmetric (fun a b : Review => a.name = b.name → a.submittedAt ≠ b.submittedAt) :=
  fun _ _ hab hba hts => hab hba.symm hts.symm

/-- C5: under pairwise-distinct submission timestamps per reviewer,
`mostRecent` keeps at most one review per reviewer login, and for each
reviewer appearing in the input it keeps exactly the review with the
maximal submission timestamp among that reviewer. -/
theorem mostRecent_spec (revs : List Review)
    (hdist : revs.Pairwise (fun a b => a.name = b.name → a.submittedAt ≠ b.submittedAt)) :
    (∀ name, (mostRecent revs).countP (fun r => r.name == name) ≤ 1) ∧
    (∀ r ∈ revs, ∃ q ∈ mostRecent revs, q ∈ revs ∧ q.name = r.name ∧
      ∀ x ∈ revs, x.name = r.name → x ≠ q → x.submittedAt < q.submittedAt) := by
  have hgood : goodMap (revs.foldl updateMostRecent []) := goodMap_foldl revs [] goodMap_nil
  constructor
  · intro name
    exact countP_map_snd_le_one name _ hgood
  · intro r hr
    have hrf : r ∈ revs.filter (fun x => x.name == r.name) := by
      rw [List.mem_filter]
      exact ⟨hr, by simp⟩
    cases hflt : revs.filter (fun x => x.name == r.name) with
    | nil =>
      rw [hflt] at hrf
      simp at hrf
    | cons h0 t0 =>
      have hlk : (revs.foldl updateMostRecent []).lookup r.name = some (t0.foldl better h0) := by
        rw [lookup_foldl_updateMostRecent, List.lookup_nil]
        exact foldl_pickReview_none r.name revs h0 t0 hflt
      have hqmem : t0.foldl better h0 ∈ h0 :: t0 := foldl_better_mem t0 h0
      have hqfil : t0.foldl better h0 ∈ revs.filter (fun x => x.name == r.name) := by
        rw [hflt]
        exact hqmem
      have hqrevs : t0.foldl better h0 ∈ revs := (List.mem_filter.mp hqfil).1
      have hqname : (t0.foldl better h0).name = r.name := by
        have hq2 := (List.mem_filter.mp hqfil).2
        simpa using hq2
      refine ⟨t0.foldl better h0, ?_, hqrevs, hqname, ?_⟩
      · unfold mostRecent
        exact List.mem_map_of_mem Prod.snd (mem_of_lookup_eq_some _ _ _ hlk)
      · intro x hx hxname hxe
        have hxfil : x ∈ revs.filter (fun y => y.name == r.name) := by
          rw [List.mem_filter]
          exact ⟨hx, by simp [hxname]⟩
        rw [hflt] at hxfil
        have hle : x.submittedAt ≤ (t0.foldl better h0).submittedAt := by
          rcases List.mem_cons.mp hxfil with rfl | hxt
          · exact (foldl_better_le t0 x).1
          · exact (foldl_better_le t0 h0).2 x hxt
        have hne : x.submittedAt ≠ (t0.foldl better h0).submittedAt :=
          (hdist.forall distinctTimes_symmetric hx hqrevs hxe)
            (hxname.trans hqname.symm)
        exact Nat.lt_of_le_of_ne hle hne

/-- C5 witness: the fixture reviews have pairwise-distinct timestamps
per reviewer, and aggregation keeps at most one review for reviewer
`a` and exactly the maximal one. -/
theorem mostRecent_spec_witness :
    List.Pairwise (fun a b : Review => a.name = b.name → a.submittedAt ≠ b.submittedAt)
      reviewsFixture ∧
    (mostRecent reviewsFixture).countP (fun r => r.name == "a") ≤ 1 :=
  ⟨by decide, (mostRecent_spec reviewsFixture (by decide)).1 "a"⟩

/-- Splitting a list along a decomposition of its filtered image. -/
theorem filter_split (p : Review → Bool) (l : List Review) (q : Review) :
    ∀ g1 g2, l.filter p = g1 ++ q :: g2 →
      ∃ l1 l2, l = l1 ++ q :: l2 ∧ l1.filter p = g1 ∧ l2.filter p = g2 := by
  induction l with
  | nil =>
    intro g1 g2 h
    rw [List.filter_nil] at h
    exact absurd h (by simp)
  | cons a t ih =>
    intro g1 g2 h
    rw [List.filter_cons] at h
    by_cases hp : p a = true
    · rw [if_pos hp] at h
      cases g1 with
      | nil =>
        simp only [List.nil_append] at h
        injection h with h1 h2
        subst h1
        exact ⟨[], t, rfl, rfl, h2⟩
      | cons b g1t =>
        rw [List.cons_append] at h
        injection h with h1 h2
        subst h1
        obtain ⟨l1, l2, he, hf1, hf2⟩ := ih g1t g2 h2
        exact ⟨a :: l1, l2, by rw [he]; rfl,
          by rw [List.filter_cons, if_pos hp, hf1], hf2⟩
    · rw [if_neg hp] at h
      obtain ⟨l1, l2, he, hf1, hf2⟩ := ih g1 g2 h
      exact ⟨a :: l1, l2, by rw [he]; rfl,
        by rw [List.filter_cons, if_neg hp, hf1], hf2⟩

/-- C6 amended: on ties `mostRecent` retains the FIRST-seen entry of
the tied maxima, deterministically: every review it returns splits the
input into a prefix of strictly-older same-reviewer reviews and a
suffix of weakly-older ones. -/
theorem mostRecent_tie_first_seen (revs : List Review) (q : Review)
    (hq : q ∈ mostRecent revs) :
    ∃ l1 l2, revs = l1 ++ q :: l2 ∧
      (∀ x ∈ l1, x.name = q.name → x.submittedAt < q.submittedAt) ∧
      (∀ x ∈ l2, x.name = q.name → x.submittedAt ≤ q.submittedAt) := by
  have hgood : goodMap (revs.foldl updateMostRecent []) := goodMap_foldl revs [] goodMap_nil
  unfold mostRecent at hq
  obtain ⟨p, hpM, hpq⟩ := List.mem_map.mp hq
  have hkey : p.2.name = p.1 := hgood.2 p hpM
  have hpform : p = (q.name, q) := by
    obtain ⟨k1, v1⟩ := p
    simp only at hpq hkey
    subst hpq
    rw [← hkey]
  have hlk : (revs.foldl updateMostRecent []).lookup q.name = some q :=
    lookup_eq_some_of_mem _ _ _ hgood.1 (hpform ▸ hpM)
  rw [lookup_foldl_updateMostRecent, List.lookup_nil] at hlk
  cases hflt : revs.filter (fun x => x.name == q.name) with
  | nil =>
    rw [foldl_pickReview_none_nil q.name revs hflt] at hlk
    cases hlk
  | cons h0 t0 =>
    rw [foldl_pickReview_none q.name revs h0 t0 hflt] at hlk
    injection hlk with hqeq
    rcases foldl_better_first t0 h0 with hcase | ⟨f1, q2, f2, heq, hfold, hlt, hf1, hf2⟩
    · have hq0 : q = h0 := by rw [← hqeq, hcase]
      subst hq0
      obtain ⟨l1, l2, he, hfil1, hfil2⟩ := filter_split _ revs q [] t0 hflt
      refine ⟨l1, l2, he, ?_, ?_⟩
      · intro x hx hxn
        have hxf : x ∈ l1.filter (fun y => y.name == q.name) := by
          rw [List.mem_filter]
          exact ⟨hx, by simp [hxn]⟩
        rw [hfil1] at hxf
        simp at hxf
      · intro x hx hxn
        have hxf : x ∈ l2.filter (fun y => y.name == q.name) := by
          rw [List.mem_filter]
          exact ⟨hx, by simp [hxn]⟩
        rw [hfil2] at hxf
        have hxle := (foldl_better_le t0 q).2 x hxf
        rw [hcase] at hxle
        exact hxle
    · have hq2 : q = q2 := by rw [← hqeq, hfold]
      subst hq2
      have hflt2 : revs.filter (fun x => x.name == q.name) = (h0 :: f1) ++ q :: f2 := by
        rw [hflt, heq]
        rfl
      obtain ⟨l1, l2, he, hfil1, hfil2⟩ := filter_split _ revs q (h0 :: f1) f2 hflt2
      refine ⟨l1, l2, he, ?_, ?_⟩
      · intro x hx hxn
        have hxf : x ∈ l1.filter (fun y => y.name == q.name) := by
          rw [List.mem_filter]
          exact ⟨hx, by simp [hxn]⟩
        rw [hfil1] at hxf
        rcases List.mem_cons.mp hxf with rfl | hxf2
        · exact hlt
        · exact hf1 x hxf2
      · intro x hx hxn
        have hxf : x ∈ l2.filter (fun y => y.name == q.name) := by
          rw [List.mem_filter]
          exact ⟨hx, by simp [hxn]⟩
        rw [hfil2] at hxf
        exact hf2 x hxf

/-- C6 amended witness: at the concrete tie, the retained review
`tieFirst` splits the input with the tied `tieSecond` in the weak
suffix. -/
theorem mostRecent_tie_first_seen_witness :
    ∃ l1 l2, [tieFirst, tieSecond] = l1 ++ tieFirst :: l2 ∧
      (∀ x ∈ l1, x.name = tieFirst.name → x.submittedAt < tieFirst.submittedAt) ∧
      (∀ x ∈ l2, x.name = tieFirst.name → x.submittedAt ≤ tieFirst.submittedAt) :=
  mostRecent_tie_first_seen [tieFirst, tieSecond] tieFirst (by decide)

/-- With an always-succeeding delete oracle the deletion loop deletes
every run it is given, in order, with no error. -/
theorem deleteSeq_all_success (deleteOk : Int → Bool) (hall : ∀ i, deleteOk i = true) :
    ∀ l : List WorkflowRun, deleteSeq deleteOk l = (l.map (fun r => r.id), none) := by
  intro l
  induction l with
  | nil => rfl
  | cons r t ih =>
    have hstep : deleteSeq deleteOk (r :: t) =
        (if deleteOk r.id then
          ((r.id :: (deleteSeq deleteOk t).1, (deleteSeq deleteOk t).2) :
            List Int × Option String)
        else ([r.id], some "failed to delete workflow run")) := rfl
    rw [hstep, if_pos (hall r.id), ih]
    rfl

/-- Every run id the deletion loop passes to the delete call comes from
the list it was given. -/
theorem deleteSeq_issued_subset (deleteOk : Int → Bool) :
    ∀ l : List WorkflowRun, ∀ i ∈ (deleteSeq deleteOk l).1, i ∈ l.map (fun r => r.id) := by
  intro l
  induction l with
  | nil => intro i hi; simp [deleteSeq] at hi
  | cons r t ih =>
    intro i hi
    have hstep : deleteSeq deleteOk (r :: t) =
        (if deleteOk r.id then
          ((r.id :: (deleteSeq deleteOk t).1, (deleteSeq deleteOk t).2) :
            List Int × Option String)
        else ([r.id], some "failed to delete workflow run")) := rfl
    rw [hstep] at hi
    by_cases hd : deleteOk r.id = true
    · rw [if_pos hd] at hi
      rcases List.mem_cons.mp hi with rfl | hi2
      · simp
      · simp only [List.map_cons, List.mem_cons]
        exact Or.inr (ih i hi2)
    · rw [if_neg hd] at hi
      simp only [List.mem_singleton] at hi
      subst hi
      simp

/-- In a run list sorted ascending by creation time, the last element
dominates every element. -/
theorem sorted_le_getLast (l : List WorkflowRun) (h : l ≠ []) (hs : l.Pairwise runLE) :
    ∀ x ∈ l, x.createdAt ≤ (l.getLast h).createdAt := by
  intro x hx
  have hd := List.dropLast_append_getLast h
  rw [← hd] at hs hx
  rw [List.pairwise_append] at hs
  rcases List.mem_append.mp hx with h1 | h1
  · exact hs.2.2 x h1 _ (by simp)
  · rw [List.mem_singleton] at h1
    subst h1
    exact Nat.le_refl _

/-- In a duplicate-free list the last element does not occur earlier. -/
theorem getLast_not_mem_dropLast (l : List WorkflowRun) (h : l ≠ []) (hnd : l.Nodup) :
    l.getLast h ∉ l.dropLast := by
  have hd := List.dropLast_append_getLast h
  rw [← hd] at hnd
  rw [List.nodup_append] at hnd
  intro hcon
  exact hnd.2.2 hcon (by simp)

/-- The pairwise distinct-creation-time relation is symmetric. -/
theorem distinctRunTimes_symmetric :
    Symmetric (fun a b : WorkflowRun => a.createdAt ≠ b.createdAt) :=
  fun _ _ h heq => h heq.symm

/-- The pairwise distinct-run-id relation is symmetric. -/
theorem distinctRunIds_symmetric :
    Symmetric (fun a b : WorkflowRun => a.id ≠ b.id) :=
  fun _ _ h heq => h heq.symm

/-- Pairwise distinct creation times make a duplicate-free run list. -/
theorem nodup_of_distinct_times (F : List WorkflowRun)
    (hTimes : F.Pairwise (fun a b => a.createdAt ≠ b.createdAt)) : F.Nodup :=
  hTimes.imp (fun hne heq => hne (congrArg WorkflowRun.createdAt heq))

/-- C7: Prune over the runs of the workflow on the branch — with
pairwise distinct creation times and run ids — is a no-op on at most one
run, never passes the run with the maximal creation time to the delete
call (for every delete oracle, so also on partial failure), and with an
always-succeeding oracle deletes exactly the non-maximal runs. -/
theorem prune_spec (hostRuns : List WorkflowRun) (workflowID : Int) (branch : String)
    (deleteOk : Int → Bool)
    (hTimes : (listWorkflowRunsByID hostRuns workflowID branch).Pairwise
      (fun a b => a.createdAt ≠ b.createdAt))
    (hIds : (listWorkflowRunsByID hostRuns workflowID branch).Pairwise
      (fun a b => a.id ≠ b.id)) :
    ((listWorkflowRunsByID hostRuns workflowID branch).length ≤ 1 →
      dismissStaleWorkflowRuns deleteOk hostRuns workflowID branch = ([], none)) ∧
    (∀ r ∈ listWorkflowRunsByID hostRuns workflowID branch,
      (∀ r2 ∈ listWorkflowRunsByID hostRuns workflowID branch, r2.createdAt ≤ r.createdAt) →
      r.id ∉ (dismissStaleWorkflowRuns deleteOk hostRuns workflowID branch).1) ∧
    ((∀ i, deleteOk i = true) →
      (dismissStaleWorkflowRuns deleteOk hostRuns workflowID branch).2 = none ∧
      ∀ r ∈ listWorkflowRunsByID hostRuns workflowID branch,
        (r.id ∈ (dismissStaleWorkflowRuns deleteOk hostRuns workflowID branch).1 ↔
          ∃ r2 ∈ listWorkflowRunsByID hostRuns workflowID branch,
            r.createdAt < r2.createdAt)) := by
  have hperm : (getSortedWorkflowRuns hostRuns workflowID branch).Perm
      (listWorkflowRunsByID hostRuns workflowID branch) :=
    List.perm_insertionSort runLE _
  have hsorted : (getSortedWorkflowRuns hostRuns workflowID branch).Pairwise runLE :=
    List.sorted_insertionSort runLE _
  have hD : dismissStaleWorkflowRuns deleteOk hostRuns workflowID branch =
      deleteSeq deleteOk (getSortedWorkflowRuns hostRuns workflowID branch).dropLast := rfl
  have hndF : (listWorkflowRunsByID hostRuns workflowID branch).Nodup :=
    nodup_of_distinct_times _ hTimes
  have hndS : (getSortedWorkflowRuns hostRuns workflowID branch).Nodup :=
    hperm.nodup_iff.mpr hndF
  have hmemdl : ∀ r ∈ listWorkflowRunsByID hostRuns workflowID branch,
      r.id ∈ (dismissStaleWorkflowRuns deleteOk hostRuns workflowID branch).1 →
      r ∈ (getSortedWorkflowRuns hostRuns workflowID branch).dropLast := by
    intro r hr hin
    rw [hD] at hin
    have hin2 := deleteSeq_issued_subset deleteOk _ r.id hin
    obtain ⟨x, hxdl, hxid⟩ := List.mem_map.mp hin2
    have hxS := List.dropLast_subset _ hxdl
    have hxF := hperm.mem_iff.mp hxS
    have hxr : x = r := by
      by_contra hne
      exact hIds.forall distinctRunIds_symmetric hxF hr hne hxid
    rw [← hxr]
    exact hxdl
  refine ⟨?_, ?_, ?_⟩
  · intro hlen
    have hlen2 : (getSortedWorkflowRuns hostRuns workflowID branch).length ≤ 1 := by
      rw [hperm.length_eq]
      exact hlen
    have hdrop : (getSortedWorkflowRuns hostRuns workflowID branch).dropLast = [] := by
      cases hScase : getSortedWorkflowRuns hostRuns workflowID branch with
      | nil => rfl
      | cons a t =>
        cases t with
        | nil => rfl
        | cons b t2 =>
          rw [hScase] at hlen2
          simp at hlen2
    rw [hD, hdrop]
    rfl
  · intro r hr hmax hin
    have hrd := hmemdl r hr hin
    have hSne : getSortedWorkflowRuns hostRuns workflowID branch ≠ [] := by
      intro hcon
      rw [hcon] at hrd
      simp at hrd
    have hz_mem : (getSortedWorkflowRuns hostRuns workflowID branch).getLast hSne ∈
        getSortedWorkflowRuns hostRuns workflowID branch := List.getLast_mem hSne
    have hzF := hperm.mem_iff.mp hz_mem
    have hrz : r ≠ (getSortedWorkflowRuns hostRuns workflowID branch).getLast hSne := by
      intro hcon
      apply getLast_not_mem_dropLast _ hSne hndS
      rw [← hcon]
      exact hrd
    have hle : r.createdAt ≤
        ((getSortedWorkflowRuns hostRuns workflowID branch).getLast hSne).createdAt :=
      sorted_le_getLast _ hSne hsorted r (List.dropLast_subset _ hrd)
    have hge := hmax _ hzF
    exact hTimes.forall distinctRunTimes_symmetric hr hzF hrz (Nat.le_antisymm hle hge)
  · intro hall
    have hds := deleteSeq_all_success deleteOk hall
        (getSortedWorkflowRuns hostRuns workflowID branch).dropLast
    constructor
    · rw [hD, hds]
    · intro r hr
      have hSne : getSortedWorkflowRuns hostRuns workflowID branch ≠ [] := by
        intro hcon
        have hFnil := (hcon ▸ hperm).symm.eq_nil
        rw [hFnil] at hr
        simp at hr
      constructor
      · intro hin
        have hrd := hmemdl r hr hin
        have hz_mem : (getSortedWorkflowRuns hostRuns workflowID branch).getLast hSne ∈
            getSortedWorkflowRuns hostRuns workflowID branch := List.getLast_mem hSne
        have hzF := hperm.mem_iff.mp hz_mem
        have hrz : r ≠ (getSortedWorkflowRuns hostRuns workflowID branch).getLast hSne := by
          intro hcon
          apply getLast_not_mem_dropLast _ hSne hndS
          rw [← hcon]
          exact hrd
        have hle : r.createdAt ≤
            ((getSortedWorkflowRuns hostRuns workflowID branch).getLast hSne).createdAt :=
          sorted_le_getLast _ hSne hsorted r (List.dropLast_subset _ hrd)
        have hne := hTimes.forall distinctRunTimes_symmetric hr hzF hrz
        exact ⟨_, hzF, Nat.lt_of_le_of_ne hle hne⟩
      · intro hex
        obtain ⟨r2, hr2, hlt⟩ := hex
        have hrS : r ∈ getSortedWorkflowRuns hostRuns workflowID branch :=
          hperm.mem_iff.mpr hr
        have hdecomp := List.dropLast_append_getLast hSne
        have hrd : r ∈ (getSortedWorkflowRuns hostRuns workflowID branch).dropLast := by
          rw [← hdecomp] at hrS
          rcases List.mem_append.mp hrS with h1 | h1
          · exact h1
          · rw [List.mem_singleton] at h1
            have hr2le := sorted_le_getLast _ hSne hsorted r2 (hperm.mem_iff.mpr hr2)
            rw [← h1] at hr2le
            omega
        rw [hD, hds]
        exact List.mem_map_of_mem (fun r => r.id) hrd

/-- C7 witness: three runs with creation times 1 < 2 < 3 and an
always-succeeding oracle — the maximal run (id 3) is not deleted, the
run at time 1 is. -/
theorem prune_spec_witness :
    ((3 : Int) ∉ (dismissStaleWorkflowRuns (fun _ => true) threeRuns 7 "main").1) ∧
    ((1 : Int) ∈ (dismissStaleWorkflowRuns (fun _ => true) threeRuns 7 "main").1) := by
  have h := prune_spec threeRuns 7 "main" (fun _ => true) (by decide) (by decide)
  refine ⟨?_, ?_⟩
  · exact h.2.1 ⟨3, 7, "main", 3⟩ (by decide) (by decide)
  · exact ((h.2.2 (fun i => rfl)).2 ⟨1, 7, "main", 1⟩ (by decide)).mpr
      ⟨⟨3, 7, "main", 3⟩, by decide, by decide⟩

/-- C8 amended: `redoMostRecentRun` fetches the runs of the workflow
with the branch filter set to the PR branch, fails not-found when no
run exists on that branch, and otherwise reruns exactly the run with
the maximal creation time among the filtered runs. -/
theorem redoMostRecentRun_spec (hostRuns : List WorkflowRun) (branch : String)
    (workflowID : Int)
    (hTimes : (listWorkflowRunsByID hostRuns workflowID branch).Pairwise
      (fun a b => a.createdAt ≠ b.createdAt)) :
    (listWorkflowRunsByID hostRuns workflowID branch = [] →
      redoMostRecentRun hostRuns branch workflowID = Except.error "workflow run not found") ∧
    (∀ r ∈ listWorkflowRunsByID hostRuns workflowID branch,
      (∀ r2 ∈ listWorkflowRunsByID hostRuns workflowID branch, r2.createdAt ≤ r.createdAt) →
      redoMostRecentRun hostRuns branch workflowID = Except.ok r.id) := by
  have hperm : (getSortedWorkflowRuns hostRuns workflowID branch).Perm
      (listWorkflowRunsByID hostRuns workflowID branch) :=
    List.perm_insertionSort runLE _
  have hsorted : (getSortedWorkflowRuns hostRuns workflowID branch).Pairwise runLE :=
    List.sorted_insertionSort runLE _
  constructor
  · intro h
    unfold redoMostRecentRun getSortedWorkflowRuns
    rw [h]
    rfl
  · intro r hr hmax
    have hSne : getSortedWorkflowRuns hostRuns workflowID branch ≠ [] := by
      intro hcon
      have hFnil := (hcon ▸ hperm).symm.eq_nil
      rw [hFnil] at hr
      simp at hr
    have hlen : ¬ (getSortedWorkflowRuns hostRuns workflowID branch).length < 1 := by
      have := List.length_pos.mpr hSne
      omega
    have hz_mem : (getSortedWorkflowRuns hostRuns workflowID branch).getLast hSne ∈
        getSortedWorkflowRuns hostRuns workflowID branch := List.getLast_mem hSne
    have hzF := hperm.mem_iff.mp hz_mem
    have hzr : (getSortedWorkflowRuns hostRuns workflowID branch).getLast hSne = r := by
      by_contra hne
      have hle : r.createdAt ≤
          ((getSortedWorkflowRuns hostRuns workflowID branch).getLast hSne).createdAt :=
        sorted_le_getLast _ hSne hsorted r (hperm.mem_iff.mpr hr)
      have hge := hmax _ hzF
      exact hTimes.forall distinctRunTimes_symmetric hzF hr hne (Nat.le_antisymm hge hle)
    have hgd : (getSortedWorkflowRuns hostRuns workflowID branch).getLastD default =
        (getSortedWorkflowRuns hostRuns workflowID branch).getLast hSne := by
      rw [List.getLastD_eq_getLast?, List.getLast?_eq_getLast _ hSne]
      rfl
    show (if (getSortedWorkflowRuns hostRuns workflowID branch).length < 1 then
        (Except.error "workflow run not found" : Except String Int)
      else Except.ok (((getSortedWorkflowRuns hostRuns workflowID branch).getLastD
        default).id)) = Except.ok r.id
    rw [if_neg hlen, hgd, hzr]

/-- C8 amended witness: with the three main-branch runs, the run at
time 3 is rerun. -/
theorem redoMostRecentRun_spec_witness :
    redoMostRecentRun threeRuns "main" 7 = Except.ok 3 :=
  (redoMostRecentRun_spec threeRuns "main" 7 (by decide)).2 ⟨3, 7, "main", 3⟩
    (by decide) (by decide)

/-- The cons step of `invalidateApprovals`, as a definitional
equation. -/
theorem invalidateApprovals_cons (dismissOk : Int → Bool) (msg : String) (v : Review)
    (rest : List Review) :
    invalidateApprovals dismissOk msg (v :: rest) =
      (if v.status == Approved then
        (if dismissOk v.id then
          (((v.id, msg) :: (invalidateApprovals dismissOk msg rest).1,
            (invalidateApprovals dismissOk msg rest).2) : List (Int × String) × Option String)
        else ([(v.id, msg)], some "failed to dismiss review"))
      else invalidateApprovals dismissOk msg rest) := rfl

/-- Every dismissal call `invalidateApprovals` issues targets an
approved review of its input and carries the given message. -/
theorem invalidateApprovals_sound (dismissOk : Int → Bool) (msg : String) :
    ∀ l : List Review, ∀ p ∈ (invalidateApprovals dismissOk msg l).1,
      p.2 = msg ∧ ∃ v ∈ l, v.id = p.1 ∧ v.status = Approved := by
  intro l
  induction l with
  | nil => intro p hp; simp [invalidateApprovals] at hp
  | cons v rest ih =>
    intro p hp
    rw [invalidateApprovals_cons] at hp
    by_cases hv : (v.status == Approved) = true
    · rw [if_pos hv] at hp
      have hvp : v.status = Approved := by simpa using hv
      by_cases hd : dismissOk v.id = true
      · rw [if_pos hd] at hp
        rcases List.mem_cons.mp hp with rfl | hp2
        · exact ⟨rfl, v, List.mem_cons_self _ _, rfl, hvp⟩
        · obtain ⟨hm, w, hw, hwid, hws⟩ := ih p hp2
          exact ⟨hm, w, List.mem_cons_of_mem _ hw, hwid, hws⟩
      · rw [if_neg hd] at hp
        rw [List.mem_singleton] at hp
        subst hp
        exact ⟨rfl, v, List.mem_cons_self _ _, rfl, hvp⟩
    · rw [if_neg hv] at hp
      obtain ⟨hm, w, hw, hwid, hws⟩ := ih p hp
      exact ⟨hm, w, List.mem_cons_of_mem _ hw, hwid, hws⟩

/-- With an always-succeeding dismiss oracle, `invalidateApprovals`
dismisses exactly the approved reviews, in input order, with no
error. -/
theorem invalidateApprovals_all_success (dismissOk : Int → Bool) (msg : String)
    (hall : ∀ i, dismissOk i = true) :
    ∀ l : List Review, invalidateApprovals dismissOk msg l =
      ((l.filter (fun v => v.status == Approved)).map (fun v => (v.id, msg)), none) := by
  intro l
  induction l with
  | nil => rfl
  | cons v rest ih =>
    rw [invalidateApprovals_cons, List.filter_cons]
    by_cases hv : (v.status == Approved) = true
    · rw [if_pos hv, if_pos (hall v.id), if_pos hv, ih, List.map_cons]
    · rw [if_neg hv, if_neg hv]
      exact ih

/-- When the first failing dismissal is reached, the loop stops: the
issued calls are the approved prefix plus the failing call, and the
error surfaces. -/
theorem invalidateApprovals_abort (dismissOk : Int → Bool) (msg : String) (v : Review)
    (l2 : List Review) (hv : v.status = Approved) (hd : dismissOk v.id = false) :
    ∀ l1 : List Review, (∀ u ∈ l1, u.status = Approved → dismissOk u.id = true) →
      invalidateApprovals dismissOk msg (l1 ++ v :: l2) =
        ((l1.filter (fun u => u.status == Approved)).map (fun u => (u.id, msg)) ++
          [(v.id, msg)], some "failed to dismiss review") := by
  intro l1
  induction l1 with
  | nil =>
    intro _
    rw [List.nil_append, invalidateApprovals_cons]
    have hvb : (v.status == Approved) = true := by simp [hv]
    rw [if_pos hvb, if_neg (by simp [hd])]
    simp
  | cons u l1t ih =>
    intro hprev
    rw [List.cons_append, invalidateApprovals_cons, List.filter_cons]
    by_cases hu : (u.status == Approved) = true
    · have hdu : dismissOk u.id = true :=
        hprev u (List.mem_cons_self _ _) (by simpa using hu)
      rw [if_pos hu, if_pos hdu, if_pos hu,
        ih (fun w hw hws => hprev w (List.mem_cons_of_mem _ hw) hws), List.map_cons]
      rfl
    · rw [if_neg hu, if_neg hu]
      exact ih (fun w hw hws => hprev w (List.mem_cons_of_mem _ hw) hws)

/-- C9: the Approval Invalidator dismisses exactly the approved
aggregated reviews, each with the composed re-review message; a failing
dismissal aborts the remaining ones and surfaces the error;
non-approved reviews are never dismissed. -/
theorem invalidateApprovals_spec (dismissOk : Int → Bool) (required : List String)
    (reviews : List Review) :
    (dismissMessage required =
      "new commit pushed, please re-review " ++
        String.join (required.map (fun reviewer => "@" ++ reviewer))) ∧
    (∀ p ∈ (invalidateApprovals dismissOk (dismissMessage required) reviews).1,
      p.2 = dismissMessage required ∧
      ∃ v ∈ reviews, v.id = p.1 ∧ v.status = Approved) ∧
    ((∀ i, dismissOk i = true) →
      invalidateApprovals dismissOk (dismissMessage required) reviews =
        ((reviews.filter (fun v => v.status == Approved)).map
          (fun v => (v.id, dismissMessage required)), none)) ∧
    (∀ l1 v l2, reviews = l1 ++ v :: l2 → v.status = Approved → dismissOk v.id = false →
      (∀ u ∈ l1, u.status = Approved → dismissOk u.id = true) →
      invalidateApprovals dismissOk (dismissMessage required) reviews =
        ((l1.filter (fun u => u.status == Approved)).map
          (fun u => (u.id, dismissMessage required)) ++ [(v.id, dismissMessage required)],
          some "failed to dismiss review")) := by
  refine ⟨rfl, invalidateApprovals_sound dismissOk _ reviews, ?_, ?_⟩
  · intro hall
    exact invalidateApprovals_all_success dismissOk _ hall reviews
  · intro l1 v l2 heq hv hd hprev
    rw [heq]
    exact invalidateApprovals_abort dismissOk _ v l2 hv hd l1 hprev

/-- C9 witness: on the fixture reviews with an oracle failing on review
id 3, the approved review 1 is dismissed with the composed message, the
non-approved review 2 is not, and the error surfaces. -/
theorem invalidateApprovals_spec_witness :
    invalidateApprovals (fun i => i != 3) (dismissMessage ["d1", "d2"]) reviewsFixture =
      ([(1, "new commit pushed, please re-review @d1@d2"),
        (3, "new commit pushed, please re-review @d1@d2")],
       some "failed to dismiss review") := by
  have h := (invalidateApprovals_spec (fun i => i != 3) ["d1", "d2"] reviewsFixture).2.2.2
    [⟨"a", "APPROVED", "s", 1, 1⟩, ⟨"b", "CHANGES_REQUESTED", "s", 2, 1⟩]
    ⟨"c", "APPROVED", "s", 3, 1⟩ [] (by decide) (by decide) (by decide) (by decide)
  rw [h]
  rfl

end GhActions
